import Mathlib

/-!
# Verification of the ConfidentialTransmission repository

Shallow embedding of the `ConfidentialTransmission` Solidity contract
(`contracts/ConfidentialTransmission.sol`) and of the frontend AES-256-CBC
content cipher (`frontend/src/components/WalletModal.tsx`:
`encryptFileWithAES` / `decryptFileContent`), together with proofs of the
specification's claims about them.

Modelling conventions:
* Ethereum addresses and FHE ciphertext handles are `Nat`; the zero address
  is `0`.  `eaddress` / `euint256` handles are carried as opaque numbers
  (the FHE runtime is an external collaborator; `FHE.fromExternal` and the
  `FHE.allow` grants have no effect on the ledger state modelled here).
* A Solidity `mapping` is a total function returning the default (zeroed)
  record for absent keys, exactly as the EVM does.
* `require(cond, msg)` is an `Except` error carrying a constructor named
  after the revert string; a reverted call returns `.error` and the caller
  keeps the pre-state (EVM transaction atomicity).
* `msg.sender` and `block.timestamp` are explicit parameters of every
  state-changing call.  On Ethereum no transaction originates from the zero
  address (it has no private key), so reachability of ledger states is
  defined over histories whose senders are nonzero where that matters.
-/

/-- The revert conditions of `ConfidentialTransmission`, one constructor per
`require` string in the contract. -/
inductive SolErr where
  /-- "Invalid recipient" (`sendMessage`) -/
  | invalidRecipient
  /-- "Empty content CID" (`sendMessage`) -/
  | emptyContentCID
  /-- "Message deleted" (`getMessage`) -/
  | messageDeleted
  /-- "Not authorized" (`getMessage`, `deleteMessage`) -/
  | notAuthorized
  /-- "Already deleted" (`deleteMessage`) -/
  | alreadyDeleted
deriving DecidableEq, Repr

/-- Spec §7 error taxonomy: `ValidationError` covers the malformed-argument
reverts of `sendMessage`. -/
def SolErr.isValidationError : SolErr → Bool
  | .invalidRecipient => true
  | .emptyContentCID => true
  | _ => false

/-- Spec §7 error taxonomy: `StateError` covers operating on an
already-deleted message. -/
def SolErr.isStateError : SolErr → Bool
  | .messageDeleted => true
  | .alreadyDeleted => true
  | _ => false

/-- Spec §7 error taxonomy: `AuthorizationError` covers a non-recipient
calling a protected read or delete. -/
def SolErr.isAuthorizationError : SolErr → Bool
  | .notAuthorized => true
  | _ => false

/-- The `Message` struct of the contract.  `encryptedSender` and
`encryptedKey` are opaque FHE handles, `recipient` a plain address. -/
structure Message where
  encryptedSender : Nat
  recipient : Nat
  contentCID : String
  encryptedKey : Nat
  timestamp : Nat
  isDeleted : Bool
deriving DecidableEq, Repr

/-- The zeroed record a Solidity `mapping(uint256 => Message)` yields for an
uninitialised key. -/
def defaultMessage : Message :=
  { encryptedSender := 0, recipient := 0, contentCID := "", encryptedKey := 0,
    timestamp := 0, isDeleted := false }

/-- Contract storage: the `messages` and index mappings plus the global
`messageCount` counter. -/
structure ContractState where
  messages : Nat → Message
  receivedMessages : Nat → List Nat
  sentMessages : Nat → List Nat
  messageCount : Nat

/-- Storage of a freshly deployed contract: every mapping is empty and the
counter is zero. -/
def initialState : ContractState :=
  { messages := fun _ => defaultMessage
    receivedMessages := fun _ => []
    sentMessages := fun _ => []
    messageCount := 0 }

/-- `sendMessage(_recipient, _contentCID, _encryptedSender, _senderProof,
_encryptedKey, _keyProof)`.  `sender` is `msg.sender`, `ts` is
`block.timestamp`.  The two `require`s guard the arguments; the message is
stored at index `messageCount`, both indices are appended to, and the
counter is incremented.  Proof verification of the external ciphertexts is
delegated to the FHE runtime (external collaborator) and the resulting
internal handles are the carried values. -/
def sendMessage (s : ContractState) (sender ts : Nat)
    (recipient' : Nat) (contentCID' : String)
    (encryptedSender' encryptedKey' : Nat) :
    Except SolErr (Nat × ContractState) :=
  if recipient' = 0 then .error .invalidRecipient
  else if contentCID'.length = 0 then .error .emptyContentCID
  else
    let newMsg : Message :=
      { encryptedSender := encryptedSender', recipient := recipient',
        contentCID := contentCID', encryptedKey := encryptedKey',
        timestamp := ts, isDeleted := false }
    let messageId := s.messageCount
    .ok (messageId,
      { messages := fun i => if i = messageId then newMsg else s.messages i
        receivedMessages := fun a =>
          if a = recipient' then s.receivedMessages a ++ [messageId]
          else s.receivedMessages a
        sentMessages := fun a =>
          if a = sender then s.sentMessages a ++ [messageId]
          else s.sentMessages a
        messageCount := messageId + 1 })

/-- `getMessage(_messageId)`: recipient-only read of the protected fields.
Checks the deletion flag first, then authorization. -/
def getMessage (s : ContractState) (sender messageId : Nat) :
    Except SolErr (Nat × String × Nat × Nat) :=
  let message := s.messages messageId
  if message.isDeleted then .error .messageDeleted
  else if ¬ message.recipient = sender then .error .notAuthorized
  else .ok (message.encryptedSender, message.contentCID,
            message.encryptedKey, message.timestamp)

/-- `getMessageMetadata(_messageId)`: unrestricted view returning
`(recipient, contentCID, timestamp, isDeleted)`; never reverts. -/
def getMessageMetadata (s : ContractState) (messageId : Nat) :
    Nat × String × Nat × Bool :=
  let message := s.messages messageId
  (message.recipient, message.contentCID, message.timestamp,
   message.isDeleted)

/-- `getReceivedMessagesOf(_recipient)`: unrestricted view of the received
index of an address. -/
def getReceivedMessagesOf (s : ContractState) (recipient' : Nat) :
    List Nat :=
  s.receivedMessages recipient'

/-- `getMySentMessages()` for `msg.sender = sender`. -/
def getMySentMessages (s : ContractState) (sender : Nat) : List Nat :=
  s.sentMessages sender

/-- `isRecipient(_messageId)` for `msg.sender = sender`. -/
def isRecipient (s : ContractState) (sender messageId : Nat) : Bool :=
  (s.messages messageId).recipient == sender

/-- `getTotalMessages()`. -/
def getTotalMessages (s : ContractState) : Nat :=
  s.messageCount

/-- `deleteMessage(_messageId)`: recipient-only soft delete; checks
authorization, then the single-use flag, then sets `isDeleted`. -/
def deleteMessage (s : ContractState) (sender messageId : Nat) :
    Except SolErr ContractState :=
  let message := s.messages messageId
  if ¬ message.recipient = sender then .error .notAuthorized
  else if message.isDeleted then .error .alreadyDeleted
  else .ok
    { s with messages := fun i =>
        if i = messageId then { message with isDeleted := true }
        else s.messages i }

/-- One state-changing transaction against the contract: a `sendMessage` or
a `deleteMessage` call with its `msg.sender` and, for sends,
`block.timestamp` and arguments. -/
inductive Tx where
  | send (sender ts recipient' : Nat) (contentCID' : String)
      (encryptedSender' encryptedKey' : Nat)
  | delete (sender messageId : Nat)
deriving DecidableEq, Repr

/-- The externally-owned account a transaction was signed by. -/
def Tx.sender : Tx → Nat
  | .send sender _ _ _ _ _ => sender
  | .delete sender _ => sender

/-- Apply one transaction: a revert (`.error`) leaves the storage unchanged
(EVM transaction rollback). -/
def applyTx (s : ContractState) : Tx → ContractState
  | .send sender ts r cid es ek =>
      match sendMessage s sender ts r cid es ek with
      | .ok (_, s') => s'
      | .error _ => s
  | .delete sender messageId =>
      match deleteMessage s sender messageId with
      | .ok s' => s'
      | .error _ => s

/-- Run a history of transactions from a starting state. -/
def execTxsFrom (s : ContractState) (txs : List Tx) : ContractState :=
  txs.foldl applyTx s

/-- Run a history of transactions from a freshly deployed contract. -/
def execTxs (txs : List Tx) : ContractState :=
  execTxsFrom initialState txs

/-- One step of the instrumented execution: apply the transaction and, when
it is a successful `sendMessage`, record the returned `messageId`. -/
def traceStep (acc : ContractState × List Nat) (tx : Tx) :
    ContractState × List Nat :=
  match tx with
  | .send sender ts r cid es ek =>
      match sendMessage acc.1 sender ts r cid es ek with
      | .ok (messageId, s') => (s', acc.2 ++ [messageId])
      | .error _ => acc
  | .delete sender messageId =>
      match deleteMessage acc.1 sender messageId with
      | .ok s' => (s', acc.2)
      | .error _ => acc

/-- Run a history from a fresh contract and also record, in order, the
`messageId` returned by each successful `sendMessage` call. -/
def execTrace (txs : List Tx) : ContractState × List Nat :=
  txs.foldl traceStep (initialState, [])

/-! ## Characterisation of the transactions -/

theorem sendMessage_ok_iff (s : ContractState) (sender ts r : Nat)
    (cid : String) (es ek : Nat) (messageId : Nat) (s' : ContractState) :
    sendMessage s sender ts r cid es ek = .ok (messageId, s') ↔
      r ≠ 0 ∧ cid.length ≠ 0 ∧ messageId = s.messageCount ∧
      s' = { messages := fun i =>
               if i = s.messageCount then
                 { encryptedSender := es, recipient := r, contentCID := cid,
                   encryptedKey := ek, timestamp := ts, isDeleted := false }
               else s.messages i
             receivedMessages := fun a =>
               if a = r then s.receivedMessages a ++ [s.messageCount]
               else s.receivedMessages a
             sentMessages := fun a =>
               if a = sender then s.sentMessages a ++ [s.messageCount]
               else s.sentMessages a
             messageCount := s.messageCount + 1 } := by
  unfold sendMessage
  split
  · simp_all
  · split
    · simp_all
    · constructor
      · intro h
        injection h with h
        injection h with h1 h2
        simp_all [eq_comm]
      · rintro ⟨-, -, h1, h2⟩
        subst h1; subst h2; rfl

theorem deleteMessage_ok_iff (s : ContractState) (sender messageId : Nat)
    (s' : ContractState) :
    deleteMessage s sender messageId = .ok s' ↔
      (s.messages messageId).recipient = sender ∧
      (s.messages messageId).isDeleted = false ∧
      s' = { s with messages := fun i =>
               if i = messageId then
                 { s.messages messageId with isDeleted := true }
               else s.messages i } := by
  unfold deleteMessage
  dsimp only
  split
  · rename_i hrec
    constructor
    · intro h; cases h
    · rintro ⟨h1, -, -⟩; exact absurd h1 hrec
  · split
    · rename_i hrec hdel
      constructor
      · intro h; cases h
      · rintro ⟨-, h2, -⟩; rw [hdel] at h2; cases h2
    · rename_i hrec hdel
      simp only [Bool.not_eq_true] at hdel
      constructor
      · intro h
        injection h with h
        exact ⟨not_not.mp hrec, hdel, h.symm⟩
      · rintro ⟨-, -, h⟩
        subst h; rfl

theorem sendMessage_error_iff (s : ContractState) (sender ts r : Nat)
    (cid : String) (es ek : Nat) (e : SolErr) :
    sendMessage s sender ts r cid es ek = .error e ↔
      (r = 0 ∧ e = .invalidRecipient) ∨
      (r ≠ 0 ∧ cid.length = 0 ∧ e = .emptyContentCID) := by
  unfold sendMessage
  split
  · rename_i h0
    constructor
    · intro h; injection h with h; exact .inl ⟨h0, h.symm⟩
    · rintro (⟨-, h⟩ | ⟨hne, -, -⟩)
      · rw [h]
      · exact absurd h0 hne
  · rename_i h0
    split
    · rename_i hcid
      constructor
      · intro h; injection h with h; exact .inr ⟨h0, hcid, h.symm⟩
      · rintro (⟨h, -⟩ | ⟨-, -, h⟩)
        · exact absurd h h0
        · rw [h]
    · rename_i hcid
      constructor
      · intro h; cases h
      · rintro (⟨h, -⟩ | ⟨-, h, -⟩)
        · exact absurd h h0
        · exact absurd h hcid

/-! ## Invariants preserved by every transaction -/

/-- Relation between a message record before and after some operations:
every field except `isDeleted` is unchanged, and `isDeleted` may only move
from `false` to `true`. -/
def frozenFields (m m' : Message) : Prop :=
  m'.encryptedSender = m.encryptedSender ∧
  m'.recipient = m.recipient ∧
  m'.contentCID = m.contentCID ∧
  m'.encryptedKey = m.encryptedKey ∧
  m'.timestamp = m.timestamp ∧
  (m.isDeleted = true → m'.isDeleted = true)

theorem frozenFields_refl (m : Message) : frozenFields m m :=
  ⟨rfl, rfl, rfl, rfl, rfl, fun h => h⟩

theorem frozenFields_trans {a b c : Message}
    (h1 : frozenFields a b) (h2 : frozenFields b c) : frozenFields a c := by
  obtain ⟨e1, r1, c1, k1, t1, d1⟩ := h1
  obtain ⟨e2, r2, c2, k2, t2, d2⟩ := h2
  exact ⟨e2.trans e1, r2.trans r1, c2.trans c1, k2.trans k1, t2.trans t1,
         fun h => d2 (d1 h)⟩

theorem applyTx_messageCount_le (s : ContractState) (tx : Tx) :
    s.messageCount ≤ (applyTx s tx).messageCount := by
  cases tx with
  | send sender ts r cid es ek =>
    rcases h : sendMessage s sender ts r cid es ek with e | ⟨mid, s'⟩
    · simp only [applyTx, h]
      exact Nat.le_refl _
    · simp only [applyTx, h]
      rw [sendMessage_ok_iff] at h
      obtain ⟨-, -, -, h4⟩ := h
      subst h4
      exact Nat.le_succ _
  | delete sender mid =>
    rcases h : deleteMessage s sender mid with e | s'
    · simp only [applyTx, h]
      exact Nat.le_refl _
    · simp only [applyTx, h]
      rw [deleteMessage_ok_iff] at h
      obtain ⟨-, -, h3⟩ := h
      subst h3
      exact Nat.le_refl _

theorem applyTx_frozen (s : ContractState) (tx : Tx) (messageId : Nat)
    (hlt : messageId < s.messageCount) :
    frozenFields (s.messages messageId) ((applyTx s tx).messages messageId) := by
  cases tx with
  | send sender ts r cid es ek =>
    rcases h : sendMessage s sender ts r cid es ek with e | ⟨mid, s'⟩
    · simp only [applyTx, h]
      exact frozenFields_refl _
    · simp only [applyTx, h]
      rw [sendMessage_ok_iff] at h
      obtain ⟨-, -, -, h4⟩ := h
      subst h4
      have hne : ¬ messageId = s.messageCount := Nat.ne_of_lt hlt
      simp only [hne, if_false]
      exact frozenFields_refl _
  | delete sender mid =>
    rcases h : deleteMessage s sender mid with e | s'
    · simp only [applyTx, h]
      exact frozenFields_refl _
    · simp only [applyTx, h]
      rw [deleteMessage_ok_iff] at h
      obtain ⟨-, -, h3⟩ := h
      subst h3
      by_cases hid : messageId = mid
      · subst hid
        simp only [if_pos rfl]
        exact ⟨rfl, rfl, rfl, rfl, rfl, fun _ => rfl⟩
      · simp only [hid, if_false]
        exact frozenFields_refl _

theorem execTxsFrom_cons (s : ContractState) (tx : Tx) (txs : List Tx) :
    execTxsFrom s (tx :: txs) = execTxsFrom (applyTx s tx) txs := rfl

theorem execTxsFrom_messageCount_le (s : ContractState) (txs : List Tx) :
    s.messageCount ≤ (execTxsFrom s txs).messageCount := by
  induction txs generalizing s with
  | nil => exact Nat.le_refl _
  | cons tx rest ih =>
    rw [execTxsFrom_cons]
    exact Nat.le_trans (applyTx_messageCount_le s tx) (ih (applyTx s tx))

theorem execTxsFrom_frozen (s : ContractState) (txs : List Tx)
    (messageId : Nat) (hlt : messageId < s.messageCount) :
    frozenFields (s.messages messageId)
      ((execTxsFrom s txs).messages messageId) := by
  induction txs generalizing s with
  | nil => exact frozenFields_refl _
  | cons tx rest ih =>
    rw [execTxsFrom_cons]
    refine frozenFields_trans (applyTx_frozen s tx messageId hlt) ?_
    exact ih (applyTx s tx)
      (Nat.lt_of_lt_of_le hlt (applyTx_messageCount_le s tx))

/-- Keys the contract never wrote still hold the zeroed default record. -/
def uninitialisedDefault (s : ContractState) : Prop :=
  ∀ messageId, s.messageCount ≤ messageId →
    s.messages messageId = defaultMessage

theorem applyTx_uninitialisedDefault (s : ContractState) (tx : Tx)
    (hs : uninitialisedDefault s) (hz : tx.sender ≠ 0) :
    uninitialisedDefault (applyTx s tx) := by
  cases tx with
  | send sender ts r cid es ek =>
    rcases h : sendMessage s sender ts r cid es ek with e | ⟨mid, s'⟩
    · simpa only [applyTx, h] using hs
    · simp only [applyTx, h]
      rw [sendMessage_ok_iff] at h
      obtain ⟨-, -, -, h4⟩ := h
      subst h4
      intro messageId hle
      simp only at hle ⊢
      have hne : ¬ messageId = s.messageCount := by omega
      simp only [hne, if_false]
      exact hs messageId (by omega)
  | delete sender mid =>
    rcases h : deleteMessage s sender mid with e | s'
    · simpa only [applyTx, h] using hs
    · simp only [applyTx, h]
      rw [deleteMessage_ok_iff] at h
      obtain ⟨h1, -, h3⟩ := h
      subst h3
      intro messageId hle
      simp only at hle ⊢
      have hmid : mid < s.messageCount := by
        by_contra hge
        have : s.messages mid = defaultMessage := hs mid (by omega)
        rw [this] at h1
        exact hz (by simpa [Tx.sender, defaultMessage] using h1.symm)
      have hne : ¬ messageId = mid := by omega
      simp only [hne, if_false]
      exact hs messageId hle

theorem execTxsFrom_uninitialisedDefault (s : ContractState) (txs : List Tx)
    (hs : uninitialisedDefault s) (hz : ∀ tx ∈ txs, tx.sender ≠ 0) :
    uninitialisedDefault (execTxsFrom s txs) := by
  induction txs generalizing s with
  | nil => exact hs
  | cons tx rest ih =>
    rw [execTxsFrom_cons]
    exact ih (applyTx s tx)
      (applyTx_uninitialisedDefault s tx hs (hz tx (by simp)))
      (fun t ht => hz t (by simp [ht]))

theorem execTxs_uninitialisedDefault (txs : List Tx)
    (hz : ∀ tx ∈ txs, tx.sender ≠ 0) :
    uninitialisedDefault (execTxs txs) :=
  execTxsFrom_uninitialisedDefault initialState txs
    (fun _ _ => rfl) hz

/-! ## Claims -/

/-- C1: for every stored message record, `getMessage` succeeds exactly when
the caller equals the stored recipient and the record is not deleted; a
deleted record yields the `StateError` "Message deleted" for every caller,
and a live record read by a non-recipient yields the `AuthorizationError`
"Not authorized". -/
theorem getMessage_access_control (s : ContractState)
    (caller messageId : Nat) :
    ((s.messages messageId).isDeleted = true →
        getMessage s caller messageId = .error .messageDeleted) ∧
    ((s.messages messageId).isDeleted = false →
        caller ≠ (s.messages messageId).recipient →
        getMessage s caller messageId = .error .notAuthorized) ∧
    ((s.messages messageId).isDeleted = false →
        caller = (s.messages messageId).recipient →
        getMessage s caller messageId =
          .ok ((s.messages messageId).encryptedSender,
               (s.messages messageId).contentCID,
               (s.messages messageId).encryptedKey,
               (s.messages messageId).timestamp)) ∧
    ((∃ v, getMessage s caller messageId = .ok v) ↔
        (s.messages messageId).isDeleted = false ∧
        caller = (s.messages messageId).recipient) ∧
    SolErr.messageDeleted.isStateError = true ∧
    SolErr.notAuthorized.isAuthorizationError = true := by
  refine ⟨?_, ?_, ?_, ?_, rfl, rfl⟩
  · intro hdel
    simp [getMessage, hdel]
  · intro hdel hne
    simp [getMessage, hdel, Ne.symm hne]
  · intro hdel hrec
    simp [getMessage, hdel, hrec.symm]
  · constructor
    · rintro ⟨v, hv⟩
      by_cases hdel : (s.messages messageId).isDeleted = true
      · simp [getMessage, hdel] at hv
      · rw [Bool.not_eq_true] at hdel
        by_cases hrec : (s.messages messageId).recipient = caller
        · exact ⟨hdel, hrec.symm⟩
        · simp [getMessage, hdel, hrec] at hv
    · rintro ⟨hdel, hrec⟩
      exact ⟨((s.messages messageId).encryptedSender,
              (s.messages messageId).contentCID,
              (s.messages messageId).encryptedKey,
              (s.messages messageId).timestamp),
             by simp [getMessage, hdel, hrec.symm]⟩

/-- Witness for C1 at a concrete state: after one send to address `2`, the
recipient's read succeeds with the stored fields. -/
theorem getMessage_access_control_witness :
    ((execTxs [Tx.send 1 100 2 "cid" 7 9]).messages 0).isDeleted = false ∧
    getMessage (execTxs [Tx.send 1 100 2 "cid" 7 9]) 2 0 =
      .ok (7, "cid", 9, 100) :=
  ⟨rfl,
   (getMessage_access_control (execTxs [Tx.send 1 100 2 "cid" 7 9]) 2
     0).2.2.1 rfl rfl⟩

theorem string_length_zero_iff (s : String) : s.length = 0 ↔ s = "" := by
  cases s with
  | mk data =>
    constructor
    · intro h
      have hd : data = [] :=
        List.length_eq_zero.mp (by simpa [String.length] using h)
      rw [hd]
    · intro h
      rw [h]
      rfl

/-- C3: `sendMessage` with the zero address as recipient reverts with
"Invalid recipient", and with an empty content CID reverts with
"Empty content CID"; both are `ValidationError`s, and the reverted
transaction leaves the contract state exactly as it was (no message is
created, no index or counter changes). -/
theorem sendMessage_validation (s : ContractState) (sender ts r : Nat)
    (cid : String) (es ek : Nat) (h : r = 0 ∨ cid = "") :
    (∃ e, sendMessage s sender ts r cid es ek = Except.error e ∧
          e.isValidationError = true) ∧
    (r = 0 → sendMessage s sender ts r cid es ek =
        Except.error SolErr.invalidRecipient) ∧
    (r ≠ 0 → cid = "" → sendMessage s sender ts r cid es ek =
        Except.error SolErr.emptyContentCID) ∧
    applyTx s (Tx.send sender ts r cid es ek) = s := by
  have herr : ∃ e, sendMessage s sender ts r cid es ek = Except.error e ∧
      e.isValidationError = true := by
    rcases h with h0 | hc
    · exact ⟨.invalidRecipient, by simp [sendMessage, h0], rfl⟩
    · by_cases h0 : r = 0
      · exact ⟨.invalidRecipient, by simp [sendMessage, h0], rfl⟩
      · exact ⟨.emptyContentCID,
          by simp [sendMessage, h0, string_length_zero_iff, hc], rfl⟩
  obtain ⟨e, he, hval⟩ := herr
  refine ⟨⟨e, he, hval⟩, ?_, ?_, ?_⟩
  · intro h0; simp [sendMessage, h0]
  · intro h0 hc; simp [sendMessage, h0, string_length_zero_iff, hc]
  · simp only [applyTx, he]

/-- Witness for C3: on a fresh contract, a send to the zero address reverts
with "Invalid recipient" and changes nothing. -/
theorem sendMessage_validation_witness :
    sendMessage initialState 1 5 0 "x" 2 3 =
      Except.error SolErr.invalidRecipient ∧
    applyTx initialState (Tx.send 1 5 0 "x" 2 3) = initialState :=
  ⟨(sendMessage_validation initialState 1 5 0 "x" 2 3 (Or.inl rfl)).2.1 rfl,
   (sendMessage_validation initialState 1 5 0 "x" 2 3 (Or.inl rfl)).2.2.2⟩

/-- C5: for every nonzero recipient and nonempty content CID, `sendMessage`
succeeds, returns the current `messageCount` as the new id, and
`getMessageMetadata` on that id then yields exactly the recipient, the CID,
the commit-time `block.timestamp`, and `isDeleted = false`. -/
theorem sendMessage_then_metadata (s : ContractState) (sender ts r : Nat)
    (cid : String) (es ek : Nat) (hr : r ≠ 0) (hc : cid ≠ "") :
    ∃ s', sendMessage s sender ts r cid es ek =
            Except.ok (s.messageCount, s') ∧
          getMessageMetadata s' s.messageCount = (r, cid, ts, false) := by
  have hclen : cid.length ≠ 0 := fun h =>
    hc ((string_length_zero_iff cid).mp h)
  refine ⟨_, (sendMessage_ok_iff s sender ts r cid es ek s.messageCount
    _).mpr ⟨hr, hclen, rfl, rfl⟩, ?_⟩
  simp [getMessageMetadata]

/-- Witness for C5: a concrete send to address `2` with CID "cid" yields
metadata `(2, "cid", 100, false)`. -/
theorem sendMessage_then_metadata_witness :
    ∃ s', sendMessage initialState 1 100 2 "cid" 7 9 =
            Except.ok (0, s') ∧
          getMessageMetadata s' 0 = (2, "cid", 100, false) :=
  sendMessage_then_metadata initialState 1 100 2 "cid" 7 9
    (by decide) (by decide)

theorem traceStep_range (s : ContractState) (ids : List Nat) (tx : Tx)
    (h : ids = List.range s.messageCount) :
    (traceStep (s, ids) tx).2 =
      List.range (traceStep (s, ids) tx).1.messageCount := by
  cases tx with
  | send sender ts r cid es ek =>
    rcases hs : sendMessage s sender ts r cid es ek with e | ⟨mid, s'⟩
    · simpa only [traceStep, hs] using h
    · simp only [traceStep, hs]
      rw [sendMessage_ok_iff] at hs
      obtain ⟨-, -, h3, h4⟩ := hs
      subst h3; subst h4
      simp only [h, List.range_succ]
  | delete sender mid =>
    rcases hs : deleteMessage s sender mid with e | s'
    · simpa only [traceStep, hs] using h
    · simp only [traceStep, hs]
      rw [deleteMessage_ok_iff] at hs
      obtain ⟨-, -, h3⟩ := hs
      subst h3
      exact h

theorem foldl_traceStep_range (txs : List Tx) (s : ContractState)
    (ids : List Nat) (h : ids = List.range s.messageCount) :
    (txs.foldl traceStep (s, ids)).2 =
      List.range (txs.foldl traceStep (s, ids)).1.messageCount := by
  induction txs generalizing s ids with
  | nil => exact h
  | cons tx rest ih =>
    rw [List.foldl_cons]
    have hstep := traceStep_range s ids tx h
    rcases hts : traceStep (s, ids) tx with ⟨s', ids'⟩
    rw [hts] at hstep
    exact ih s' ids' hstep

/-- C4: running any transaction history from a fresh contract, the ids
returned by the successful `sendMessage` calls are, in submission order,
exactly `[0, 1, …, N-1]` where `N` is the number of successful sends; the
final `getTotalMessages()` equals `N`; and the ids are pairwise distinct. -/
theorem sendMessage_ids_sequential (txs : List Tx) :
    (execTrace txs).2 = List.range (execTrace txs).2.length ∧
    getTotalMessages (execTrace txs).1 = (execTrace txs).2.length ∧
    (execTrace txs).2.Nodup := by
  have h := foldl_traceStep_range txs initialState [] rfl
  have hlen : (execTrace txs).2.length = (execTrace txs).1.messageCount := by
    rw [execTrace] at *
    rw [h, List.length_range]
  refine ⟨?_, ?_, ?_⟩
  · rw [hlen]
    exact h
  · exact hlen.symm
  · rw [execTrace] at *
    rw [h]
    exact List.nodup_range _

/-- C7: once a message exists (its id is below `messageCount`), no later
sequence of transactions changes its `encryptedSender`, `recipient`,
`contentCID`, `encryptedKey` or `timestamp`, and its `isDeleted` flag never
goes back from `true` to `false`. -/
theorem message_fields_immutable (s : ContractState) (txs : List Tx)
    (messageId : Nat) (h : messageId < s.messageCount) :
    ((execTxsFrom s txs).messages messageId).encryptedSender =
      (s.messages messageId).encryptedSender ∧
    ((execTxsFrom s txs).messages messageId).recipient =
      (s.messages messageId).recipient ∧
    ((execTxsFrom s txs).messages messageId).contentCID =
      (s.messages messageId).contentCID ∧
    ((execTxsFrom s txs).messages messageId).encryptedKey =
      (s.messages messageId).encryptedKey ∧
    ((execTxsFrom s txs).messages messageId).timestamp =
      (s.messages messageId).timestamp ∧
    ((s.messages messageId).isDeleted = true →
      ((execTxsFrom s txs).messages messageId).isDeleted = true) :=
  execTxsFrom_frozen s txs messageId h

/-- Witness for C7: after one send, running a delete and another send leaves
message 0's recipient and CID intact. -/
theorem message_fields_immutable_witness :
    0 < (execTxs [Tx.send 1 100 2 "cid" 7 9]).messageCount ∧
    ((execTxsFrom (execTxs [Tx.send 1 100 2 "cid" 7 9])
        [Tx.delete 2 0, Tx.send 3 200 4 "c2" 8 10]).messages 0).recipient =
      ((execTxs [Tx.send 1 100 2 "cid" 7 9]).messages 0).recipient :=
  ⟨Nat.zero_lt_one,
   (message_fields_immutable (execTxs [Tx.send 1 100 2 "cid" 7 9])
     [Tx.delete 2 0, Tx.send 3 200 4 "c2" 8 10] 0 Nat.zero_lt_one).2.1⟩

/-- Counterexample to C2 as stated: after address `2` receives message 0 and
deletes it, a subsequent `deleteMessage(0)` by the third party `3` reverts
with "Not authorized" — an `AuthorizationError`, not a `StateError` — because
`deleteMessage` checks authorization before the deleted flag. -/
theorem deleteMessage_nonrecipient_after_delete_not_state_error :
    deleteMessage (execTxs [Tx.send 1 100 2 "cid" 7 9, Tx.delete 2 0]) 3 0 =
      Except.error SolErr.notAuthorized ∧
    SolErr.notAuthorized.isStateError = false ∧
    SolErr.notAuthorized.isAuthorizationError = true := by
  refine ⟨?_, rfl, rfl⟩
  rfl

/-- C2 (amended): for every created, not-yet-deleted message, the first
`deleteMessage` call by the recipient succeeds and sets `isDeleted`; after
that, no matter which transactions intervene, a further `deleteMessage` on
that id by the recipient reverts with the `StateError` "Already deleted",
while one by any other caller reverts with the `AuthorizationError`
"Not authorized"; no subsequent call ever succeeds. -/
theorem deleteMessage_single_use (s : ContractState) (messageId : Nat)
    (hlt : messageId < s.messageCount)
    (hlive : (s.messages messageId).isDeleted = false) :
    ∃ s', deleteMessage s (s.messages messageId).recipient messageId =
            Except.ok s' ∧
      (s'.messages messageId).isDeleted = true ∧
      ∀ txs caller,
        (caller = (s.messages messageId).recipient →
          deleteMessage (execTxsFrom s' txs) caller messageId =
            Except.error SolErr.alreadyDeleted) ∧
        (caller ≠ (s.messages messageId).recipient →
          deleteMessage (execTxsFrom s' txs) caller messageId =
            Except.error SolErr.notAuthorized) ∧
        ∀ s'', deleteMessage (execTxsFrom s' txs) caller messageId ≠
            Except.ok s'' := by
  refine ⟨_, (deleteMessage_ok_iff s (s.messages messageId).recipient
    messageId _).mpr ⟨rfl, hlive, rfl⟩, ?_, ?_⟩
  · simp
  · intro txs caller
    set s' : ContractState :=
      { s with messages := fun i =>
          if i = messageId then
            { s.messages messageId with isDeleted := true }
          else s.messages i } with hs'
    have hcount : s'.messageCount = s.messageCount := rfl
    have hlt' : messageId < s'.messageCount := by rw [hcount]; exact hlt
    have hfrozen := execTxsFrom_frozen s' txs messageId hlt'
    obtain ⟨-, hrec, -, -, -, hdel⟩ := hfrozen
    have hs'rec : (s'.messages messageId).recipient =
        (s.messages messageId).recipient := by simp [hs']
    have hs'del : (s'.messages messageId).isDeleted = true := by simp [hs']
    have htrec : ((execTxsFrom s' txs).messages messageId).recipient =
        (s.messages messageId).recipient := by rw [hrec, hs'rec]
    have htdel : ((execTxsFrom s' txs).messages messageId).isDeleted =
        true := hdel hs'del
    refine ⟨?_, ?_, ?_⟩
    · intro hc
      simp [deleteMessage, htrec, htdel, hc]
    · intro hc
      simp [deleteMessage, htrec, Ne.symm hc]
    · intro s'' hok
      rw [deleteMessage_ok_iff] at hok
      obtain ⟨-, hfalse, -⟩ := hok
      rw [htdel] at hfalse
      cases hfalse

/-- Witness for the amended C2 at a concrete state: message 0, received by
address `2`, is deletable once by `2`, and afterwards `2` gets
"Already deleted" while `3` gets "Not authorized". -/
theorem deleteMessage_single_use_witness :
    0 < (execTxs [Tx.send 1 100 2 "cid" 7 9]).messageCount ∧
    ((execTxs [Tx.send 1 100 2 "cid" 7 9]).messages 0).isDeleted = false ∧
    (∃ s', deleteMessage (execTxs [Tx.send 1 100 2 "cid" 7 9])
            ((execTxs [Tx.send 1 100 2 "cid" 7 9]).messages 0).recipient 0 =
              Except.ok s' ∧
      (s'.messages 0).isDeleted = true ∧
      ∀ txs caller,
        (caller = ((execTxs [Tx.send 1 100 2 "cid" 7 9]).messages
            0).recipient →
          deleteMessage (execTxsFrom s' txs) caller 0 =
            Except.error SolErr.alreadyDeleted) ∧
        (caller ≠ ((execTxs [Tx.send 1 100 2 "cid" 7 9]).messages
            0).recipient →
          deleteMessage (execTxsFrom s' txs) caller 0 =
            Except.error SolErr.notAuthorized) ∧
        ∀ s'', deleteMessage (execTxsFrom s' txs) caller 0 ≠
            Except.ok s'') :=
  ⟨Nat.zero_lt_one, rfl,
   deleteMessage_single_use (execTxs [Tx.send 1 100 2 "cid" 7 9]) 0
     Nat.zero_lt_one rfl⟩

/-- C8: a successful `sendMessage` appends the new id at the end of the
recipient's received index and leaves every other address's index — and all
prior entries of the recipient's — unchanged; `deleteMessage` never touches
the indices; and across any single transaction the received index of every
address only ever grows by appending at the end. -/
theorem receivedIndex_append_only (s : ContractState) :
    (∀ sender ts r cid es ek messageId s',
       sendMessage s sender ts r cid es ek = Except.ok (messageId, s') →
       getReceivedMessagesOf s' r = getReceivedMessagesOf s r ++ [messageId] ∧
       ∀ a, a ≠ r →
         getReceivedMessagesOf s' a = getReceivedMessagesOf s a) ∧
    (∀ sender messageId s',
       deleteMessage s sender messageId = Except.ok s' →
       ∀ a, getReceivedMessagesOf s' a = getReceivedMessagesOf s a) ∧
    (∀ tx a, ∃ t, getReceivedMessagesOf (applyTx s tx) a =
       getReceivedMessagesOf s a ++ t) := by
  refine ⟨?_, ?_, ?_⟩
  · intro sender ts r cid es ek messageId s' h
    rw [sendMessage_ok_iff] at h
    obtain ⟨-, -, h3, h4⟩ := h
    subst h3; subst h4
    constructor
    · simp [getReceivedMessagesOf]
    · intro a ha
      simp [getReceivedMessagesOf, ha]
  · intro sender messageId s' h
    rw [deleteMessage_ok_iff] at h
    obtain ⟨-, -, h3⟩ := h
    subst h3
    intro a
    rfl
  · intro tx a
    cases tx with
    | send sender ts r cid es ek =>
      rcases h : sendMessage s sender ts r cid es ek with e | ⟨mid, s'⟩
      · exact ⟨[], by simp only [applyTx, h, List.append_nil]⟩
      · simp only [applyTx, h]
        rw [sendMessage_ok_iff] at h
        obtain ⟨-, -, -, h4⟩ := h
        subst h4
        by_cases ha : a = r
        · exact ⟨[s.messageCount], by simp [getReceivedMessagesOf, ha]⟩
        · exact ⟨[], by simp [getReceivedMessagesOf, ha]⟩
    | delete sender mid =>
      rcases h : deleteMessage s sender mid with e | s'
      · exact ⟨[], by simp only [applyTx, h, List.append_nil]⟩
      · simp only [applyTx, h]
        rw [deleteMessage_ok_iff] at h
        obtain ⟨-, -, h3⟩ := h
        subst h3
        exact ⟨[], by simp [getReceivedMessagesOf]⟩

/-- Witness for C8: sending to address `2` on a fresh contract appends id 0
at the end of `2`'s received index. -/
theorem receivedIndex_append_only_witness :
    getReceivedMessagesOf (applyTx initialState (Tx.send 1 100 2 "cid" 7 9))
      2 = getReceivedMessagesOf initialState 2 ++ [0] :=
  ((receivedIndex_append_only initialState).1 1 100 2 "cid" 7 9 0
    (applyTx initialState (Tx.send 1 100 2 "cid" 7 9)) rfl).1

/-- C9: in any state reached by transactions from nonzero senders, reading
`getMessageMetadata` of an id at or above `getTotalMessages()` does not
fail: it returns the zeroed record `(0, "", 0, false)` — the zero address
as recipient, an empty CID, a zero timestamp and `isDeleted = false` — for
any caller, with no distinct not-found error. -/
theorem getMessageMetadata_out_of_range (txs : List Tx)
    (hz : ∀ tx ∈ txs, tx.sender ≠ 0) (messageId : Nat)
    (hge : getTotalMessages (execTxs txs) ≤ messageId) :
    getMessageMetadata (execTxs txs) messageId = (0, "", 0, false) := by
  have hd := execTxs_uninitialisedDefault txs hz messageId hge
  simp [getMessageMetadata, hd, defaultMessage]

/-- Witness for C9: after one send there is one message, and metadata of the
absent id 5 is the zeroed tuple. -/
theorem getMessageMetadata_out_of_range_witness :
    (∀ tx ∈ [Tx.send 1 100 2 "cid" 7 9], tx.sender ≠ 0) ∧
    getTotalMessages (execTxs [Tx.send 1 100 2 "cid" 7 9]) ≤ 5 ∧
    getMessageMetadata (execTxs [Tx.send 1 100 2 "cid" 7 9]) 5 =
      (0, "", 0, false) :=
  ⟨by decide, by decide,
   getMessageMetadata_out_of_range [Tx.send 1 100 2 "cid" 7 9]
     (by decide) 5 (by decide)⟩

/-- C10: in any state reached by transactions from nonzero senders,
`getMessage` on an id at or above `getTotalMessages()` reverts with
"Not authorized" (an `AuthorizationError`) for every nonzero caller: the
uninitialised record has `isDeleted = false` and the zero address as
recipient, so the deletion check passes and the recipient check fails —
there is no distinct not-found signal. -/
theorem getMessage_out_of_range (txs : List Tx)
    (hz : ∀ tx ∈ txs, tx.sender ≠ 0) (caller messageId : Nat)
    (hge : getTotalMessages (execTxs txs) ≤ messageId)
    (hc : caller ≠ 0) :
    getMessage (execTxs txs) caller messageId =
      Except.error SolErr.notAuthorized ∧
    SolErr.notAuthorized.isAuthorizationError = true := by
  have hd := execTxs_uninitialisedDefault txs hz messageId hge
  refine ⟨?_, rfl⟩
  simp [getMessage, hd, defaultMessage, Ne.symm hc]

/-- Witness for C10: reading the absent id 5 as caller `9` reverts with
"Not authorized". -/
theorem getMessage_out_of_range_witness :
    getMessage (execTxs [Tx.send 1 100 2 "cid" 7 9]) 9 5 =
      Except.error SolErr.notAuthorized :=
  (getMessage_out_of_range [Tx.send 1 100 2 "cid" 7 9] (by decide) 9 5
    (by decide) (by decide)).1

/-!
## The content cipher (frontend `encryptFileWithAES` / `decryptFileContent`)

Bytes are `Nat`s below 256.  The hex conversions, the parameter plumbing and
the choice of AES-256-CBC are the repository's code; the AES-CBC algorithm
invoked through `crypto.subtle.encrypt/decrypt` is, per the Web Crypto
specification, PKCS#7 padding plus CBC chaining over the AES-256 block
permutation.  The block permutation itself is external to the repository and
is modelled as an abstract keyed family of permutations of 16-byte blocks
(spec §4.2: "uses a 256-bit-key block cipher in CBC mode").
-/

/-- One digit of JS `b.toString(16)`: `0`-`9` then `a`-`f`. -/
def hexDigitChar (n : Nat) : Char :=
  if n < 10 then Char.ofNat (48 + n) else Char.ofNat (87 + n)

/-- `b.toString(16).padStart(2, '0')` for a byte `b < 256`: exactly two hex
digit characters. -/
def byteToHexChars (b : Nat) : List Char :=
  [hexDigitChar (b / 16), hexDigitChar (b % 16)]

/-- `Array.from(bytes).map(b => b.toString(16).padStart(2, '0')).join('')`:
the hex encoding used for the ciphertext and the iv. -/
def bytesToHex (bs : List Nat) : String :=
  String.mk (bs.flatMap byteToHexChars)

/-- `parseInt(c, 16)` for a single hex digit character. -/
def hexDigitVal (c : Char) : Nat :=
  if 97 ≤ c.toNat then c.toNat - 87 else c.toNat - 48

/-- `hex.match(/.{1,2}/g).map(b => parseInt(b, 16))`: split the string into
pairs of characters (a trailing lone character stands alone, as with the
regex) and parse each group in base 16. -/
def hexCharsToBytes : List Char → List Nat
  | c1 :: c2 :: rest =>
      (hexDigitVal c1 * 16 + hexDigitVal c2) :: hexCharsToBytes rest
  | [c] => [hexDigitVal c]
  | [] => []

/-- Hex decoding of a string, as done on the decrypt path. -/
def hexToBytes (s : String) : List Nat :=
  hexCharsToBytes s.data

/-- Byte-wise xor of two equal-length blocks: the CBC chaining step. -/
def zipXor (a b : List Nat) : List Nat :=
  List.zipWith (fun x y => x ^^^ y) a b

/-- PKCS#7 padding to a multiple of the 16-byte AES block size, as mandated
by the Web Crypto AES-CBC algorithm: always appends `p ∈ [1, 16]` bytes of
value `p`. -/
def pkcs7pad (bs : List Nat) : List Nat :=
  bs ++ List.replicate (16 - bs.length % 16) (16 - bs.length % 16)

/-- PKCS#7 unpadding: drop as many trailing bytes as the last byte says. -/
def pkcs7unpad (bs : List Nat) : List Nat :=
  bs.take (bs.length - bs.getLastD 0)

/-- Split a byte string into consecutive 16-byte blocks. -/
def toBlocks : List Nat → List (List Nat)
  | [] => []
  | a :: rest => ((a :: rest).take 16) :: toBlocks ((a :: rest).drop 16)
termination_by l => l.length
decreasing_by simp [List.length_drop]; omega

/-- CBC encryption of a block sequence: each plaintext block is xored with
the previous ciphertext block (initially the iv) and passed through the
block permutation `E`. -/
def cbcEncrypt (E : List Nat → List Nat) (prev : List Nat) :
    List (List Nat) → List (List Nat)
  | [] => []
  | b :: rest => E (zipXor prev b) :: cbcEncrypt E (E (zipXor prev b)) rest

/-- CBC decryption of a block sequence: each ciphertext block is inverted
through `D` and xored with the previous ciphertext block (initially the
iv). -/
def cbcDecrypt (D : List Nat → List Nat) (prev : List Nat) :
    List (List Nat) → List (List Nat)
  | [] => []
  | c :: rest => zipXor prev (D c) :: cbcDecrypt D c rest

/-- Modelled from the spec: the AES-256 block primitive invoked through
`window.crypto.subtle` is not part of this repository's sources; spec §4.2
specifies only "a 256-bit-key block cipher in CBC mode".  It is modelled as
an abstract keyed family of block transformations. -/
structure BlockCipher where
  enc : List Nat → List Nat → List Nat
  dec : List Nat → List Nat → List Nat

/-- What makes `C` a block cipher: on 16-byte blocks of bytes, `C.enc key`
produces a 16-byte block of bytes and `C.dec key` undoes it. -/
def BlockCipher.Sound (C : BlockCipher) : Prop :=
  ∀ key b, b.length = 16 → (∀ x ∈ b, x < 256) →
    (C.enc key b).length = 16 ∧ (∀ x ∈ C.enc key b, x < 256) ∧
    C.dec key (C.enc key b) = b

/-- `crypto.subtle.encrypt({name: 'AES-CBC', iv}, key, content)`: PKCS#7
padding then CBC chaining from the iv (Web Crypto AES-CBC semantics). -/
def subtleEncryptCBC (C : BlockCipher) (key iv content : List Nat) :
    List Nat :=
  (cbcEncrypt (C.enc key) iv (toBlocks (pkcs7pad content))).flatten

/-- `crypto.subtle.decrypt({name: 'AES-CBC', iv}, key, ct)`: CBC inversion
from the iv then PKCS#7 unpadding. -/
def subtleDecryptCBC (C : BlockCipher) (key iv ct : List Nat) : List Nat :=
  pkcs7unpad ((cbcDecrypt (C.dec key) iv (toBlocks ct)).flatten)

/-- The record returned by `encryptFileWithAES`: ciphertext hex, raw 32-byte
key, iv hex. -/
structure EncryptionResult where
  encrypted : String
  key : List Nat
  iv : String
deriving Repr

/-- `encryptFileWithAES(content)` from `WalletModal.tsx`.  The source draws
`aesKey` (32 bytes) and `iv` (16 bytes) from `crypto.getRandomValues`; they
are explicit parameters here, and the Web Crypto AES-CBC primitive is the
abstract `C`.  Content bytes are the UTF-8 encoding for a text message or
the raw buffer for a file. -/
def encryptFileWithAES (C : BlockCipher) (aesKey iv contentBytes : List Nat) :
    EncryptionResult :=
  { encrypted := bytesToHex (subtleEncryptCBC C aesKey iv contentBytes)
    key := aesKey
    iv := bytesToHex iv }

/-- `decryptFileContent(encryptedHex, key, iv)` from `WalletModal.tsx`:
hex-decode the ciphertext and apply Web Crypto AES-CBC decryption. -/
def decryptFileContent (C : BlockCipher) (encryptedHex : String)
    (key iv : List Nat) : List Nat :=
  subtleDecryptCBC C key iv (hexToBytes encryptedHex)

/-! ### Hex round trip -/

theorem hexDigit_round : ∀ n < 16, hexDigitVal (hexDigitChar n) = n := by
  decide

theorem hexCharsToBytes_flatMap (bs : List Nat) (h : ∀ x ∈ bs, x < 256) :
    hexCharsToBytes (bs.flatMap byteToHexChars) = bs := by
  induction bs with
  | nil => rfl
  | cons b rest ih =>
    have hb : b < 256 := h b (by simp)
    have h1 : hexDigitVal (hexDigitChar (b / 16)) = b / 16 :=
      hexDigit_round _ (by omega)
    have h2 : hexDigitVal (hexDigitChar (b % 16)) = b % 16 :=
      hexDigit_round _ (by omega)
    have hstep : hexCharsToBytes ((b :: rest).flatMap byteToHexChars) =
        (hexDigitVal (hexDigitChar (b / 16)) * 16 +
          hexDigitVal (hexDigitChar (b % 16))) ::
          hexCharsToBytes (rest.flatMap byteToHexChars) := rfl
    rw [hstep, h1, h2, show b / 16 * 16 + b % 16 = b by omega,
        ih (fun x hx => h x (List.mem_cons_of_mem _ hx))]

theorem hexToBytes_bytesToHex (bs : List Nat) (h : ∀ x ∈ bs, x < 256) :
    hexToBytes (bytesToHex bs) = bs :=
  hexCharsToBytes_flatMap bs h

/-! ### PKCS#7 round trip -/

theorem pkcs7pad_length_mod (bs : List Nat) :
    (pkcs7pad bs).length % 16 = 0 := by
  simp only [pkcs7pad, List.length_append, List.length_replicate]
  omega

theorem pkcs7pad_bytes (bs : List Nat) (h : ∀ x ∈ bs, x < 256) :
    ∀ x ∈ pkcs7pad bs, x < 256 := by
  intro x hx
  simp only [pkcs7pad, List.mem_append] at hx
  rcases hx with hx | hx
  · exact h x hx
  · have := List.eq_of_mem_replicate hx
    omega

theorem pkcs7unpad_pad (bs : List Nat) : pkcs7unpad (pkcs7pad bs) = bs := by
  have hlast : (pkcs7pad bs).getLastD 0 = 16 - bs.length % 16 := by
    unfold pkcs7pad
    rw [show List.replicate (16 - bs.length % 16) (16 - bs.length % 16) =
        List.replicate (16 - bs.length % 16 - 1) (16 - bs.length % 16) ++
          [16 - bs.length % 16] by
      rw [← List.replicate_succ']
      congr 1
      omega]
    rw [← List.append_assoc]
    simp
  unfold pkcs7unpad
  rw [hlast]
  simp only [pkcs7pad, List.length_append, List.length_replicate]
  rw [show bs.length + (16 - bs.length % 16) - (16 - bs.length % 16) =
      bs.length by omega]
  exact List.take_left bs _

/-! ### Block splitting -/

theorem toBlocks_flatten (l : List Nat) : (toBlocks l).flatten = l := by
  induction l using toBlocks.induct with
  | case1 => rw [toBlocks]; rfl
  | case2 a rest ih =>
    rw [toBlocks]
    simp only [List.flatten_cons, ih, List.take_append_drop]

theorem toBlocks_length_mem (l : List Nat) (h : l.length % 16 = 0) :
    ∀ b ∈ toBlocks l, b.length = 16 := by
  induction l using toBlocks.induct with
  | case1 =>
    intro b hb
    simp [toBlocks] at hb
  | case2 a rest ih =>
    intro b hb
    rw [toBlocks] at hb
    have hlen : 16 ≤ (a :: rest).length := by
      by_contra hlt
      simp only [List.length_cons] at hlt h
      omega
    rcases List.mem_cons.mp hb with rfl | hb
    · simp only [List.length_take]
      omega
    · refine ih ?_ b hb
      simp only [List.length_drop]
      simp only [List.length_cons] at h hlen ⊢
      omega

theorem toBlocks_bytes (l : List Nat) (hl : ∀ x ∈ l, x < 256) :
    ∀ b ∈ toBlocks l, ∀ x ∈ b, x < 256 := by
  induction l using toBlocks.induct with
  | case1 =>
    intro b hb
    simp [toBlocks] at hb
  | case2 a rest ih =>
    intro b hb
    rw [toBlocks] at hb
    rcases List.mem_cons.mp hb with rfl | hb
    · intro x hx
      exact hl x (List.take_subset _ _ hx)
    · exact ih (fun x hx => hl x (List.drop_subset _ _ hx)) b hb

theorem toBlocks_append16 (c t : List Nat) (hc : c.length = 16) :
    toBlocks (c ++ t) = c :: toBlocks t := by
  cases c with
  | nil => simp at hc
  | cons y ys =>
    have hform : (y :: ys) ++ t = y :: (ys ++ t) := rfl
    rw [hform, toBlocks]
    congr 1
    · rw [← hform, ← hc, List.take_left]
    · rw [← hform, ← hc, List.drop_left]

theorem toBlocks_of_blocks (cs : List (List Nat))
    (h : ∀ b ∈ cs, b.length = 16) : toBlocks cs.flatten = cs := by
  induction cs with
  | nil => rw [List.flatten_nil, toBlocks]
  | cons c rest ih =>
    rw [List.flatten_cons, toBlocks_append16 c _ (h c (by simp)),
        ih (fun b hb => h b (List.mem_cons_of_mem _ hb))]

/-! ### CBC chaining round trip -/

theorem zipXor_length (a b : List Nat) :
    (zipXor a b).length = min a.length b.length := by
  simp [zipXor]

theorem zipXor_cancel_left : ∀ (a b : List Nat), a.length = b.length →
    zipXor a (zipXor a b) = b := by
  intro a
  induction a with
  | nil =>
    intro b hb
    cases b with
    | nil => rfl
    | cons y ys => simp at hb
  | cons x xs ih =>
    intro b hb
    cases b with
    | nil => simp at hb
    | cons y ys =>
      simp only [zipXor, List.zipWith_cons_cons]
      rw [Nat.xor_cancel_left]
      congr 1
      exact ih ys (by simpa using hb)

theorem zipXor_bytes : ∀ (a b : List Nat), (∀ x ∈ a, x < 256) →
    (∀ x ∈ b, x < 256) → ∀ x ∈ zipXor a b, x < 256 := by
  intro a
  induction a with
  | nil =>
    intro b _ _ x hx
    simp [zipXor] at hx
  | cons y ys ih =>
    intro b ha hb x hx
    cases b with
    | nil => simp [zipXor] at hx
    | cons z zs =>
      simp only [zipXor, List.zipWith_cons_cons, List.mem_cons] at hx
      rcases hx with rfl | hx
      · exact Nat.xor_lt_two_pow (n := 8) (ha y (by simp)) (hb z (by simp))
      · exact ih zs (fun u hu => ha u (by simp [hu]))
          (fun u hu => hb u (by simp [hu])) x hx

theorem cbc_round_trip (C : BlockCipher) (hC : C.Sound) (key : List Nat) :
    ∀ (bls : List (List Nat)) (prev : List Nat),
      prev.length = 16 → (∀ x ∈ prev, x < 256) →
      (∀ b ∈ bls, b.length = 16 ∧ ∀ x ∈ b, x < 256) →
      (∀ c ∈ cbcEncrypt (C.enc key) prev bls,
        c.length = 16 ∧ ∀ x ∈ c, x < 256) ∧
      cbcDecrypt (C.dec key) prev (cbcEncrypt (C.enc key) prev bls) =
        bls := by
  intro bls
  induction bls with
  | nil =>
    intro prev _ _ _
    exact ⟨by intro c hc; simp [cbcEncrypt] at hc, rfl⟩
  | cons b rest ih =>
    intro prev hp1 hp2 hb
    have hb1 : b.length = 16 := (hb b (by simp)).1
    have hb2 : ∀ x ∈ b, x < 256 := (hb b (by simp)).2
    have hx1 : (zipXor prev b).length = 16 := by
      rw [zipXor_length, hp1, hb1]
      exact Nat.min_self 16
    have hx2 : ∀ x ∈ zipXor prev b, x < 256 := zipXor_bytes prev b hp2 hb2
    obtain ⟨hc1, hc2, hc3⟩ := hC key (zipXor prev b) hx1 hx2
    obtain ⟨ihprops, ihdec⟩ := ih (C.enc key (zipXor prev b)) hc1 hc2
      (fun b' hb' => hb b' (List.mem_cons_of_mem _ hb'))
    rw [cbcEncrypt]
    constructor
    · intro c hc
      rcases List.mem_cons.mp hc with rfl | hc
      · exact ⟨hc1, hc2⟩
      · exact ihprops c hc
    · rw [cbcDecrypt, ihdec, hc3,
        zipXor_cancel_left prev b (by rw [hp1, hb1])]

/-- C6: `decryptFileContent` is the exact inverse of `encryptFileWithAES`
for the key and iv returned by that encrypt call: for every byte sequence
`content`, any 16-byte iv, and any sound block cipher (as AES-256 is),
decrypting the returned ciphertext hex with the same key and iv yields
exactly the original content; moreover the returned key is the key used and
the returned iv hex decodes back to the iv used. -/
theorem decryptFileContent_inverts_encryptFileWithAES (C : BlockCipher)
    (hC : C.Sound) (aesKey iv content : List Nat)
    (hiv1 : iv.length = 16) (hiv2 : ∀ x ∈ iv, x < 256)
    (hcontent : ∀ x ∈ content, x < 256) :
    decryptFileContent C (encryptFileWithAES C aesKey iv content).encrypted
        aesKey iv = content ∧
    (encryptFileWithAES C aesKey iv content).key = aesKey ∧
    hexToBytes (encryptFileWithAES C aesKey iv content).iv = iv := by
  have hpadlen : (pkcs7pad content).length % 16 = 0 :=
    pkcs7pad_length_mod content
  have hpadbytes := pkcs7pad_bytes content hcontent
  have hblocks : ∀ b ∈ toBlocks (pkcs7pad content),
      b.length = 16 ∧ ∀ x ∈ b, x < 256 :=
    fun b hb => ⟨toBlocks_length_mem _ hpadlen b hb,
                 toBlocks_bytes _ hpadbytes b hb⟩
  obtain ⟨hctprops, hdec⟩ := cbc_round_trip C hC aesKey
    (toBlocks (pkcs7pad content)) iv hiv1 hiv2 hblocks
  have hctbytes : ∀ x ∈ (cbcEncrypt (C.enc aesKey) iv
      (toBlocks (pkcs7pad content))).flatten, x < 256 := by
    intro x hx
    obtain ⟨c, hc, hxc⟩ := List.mem_flatten.mp hx
    exact (hctprops c hc).2 x hxc
  refine ⟨?_, rfl, hexToBytes_bytesToHex iv hiv2⟩
  show subtleDecryptCBC C aesKey iv
      (hexToBytes (bytesToHex (subtleEncryptCBC C aesKey iv content))) =
    content
  rw [subtleEncryptCBC, hexToBytes_bytesToHex _ hctbytes, subtleDecryptCBC,
      toBlocks_of_blocks _ (fun c hc => (hctprops c hc).1), hdec,
      toBlocks_flatten, pkcs7unpad_pad]

/-- A concrete sound block "cipher" — block reversal, its own inverse — used
to exercise the round-trip theorem on concrete data. -/
def reverseCipher : BlockCipher :=
  { enc := fun _ b => b.reverse
    dec := fun _ b => b.reverse }

theorem reverseCipher_sound : reverseCipher.Sound := by
  intro key b hb hx
  refine ⟨by simpa [reverseCipher] using hb, ?_, by simp [reverseCipher]⟩
  intro x hxm
  exact hx x (by simpa [reverseCipher] using hxm)

/-- Witness for C6 on concrete data: a 2-byte content, a 32-byte key of `7`s
and the iv `[0, …, 15]` round-trip through the full hex/CBC/PKCS#7
pipeline. -/
theorem decryptFileContent_inverts_encryptFileWithAES_witness :
    decryptFileContent reverseCipher
      (encryptFileWithAES reverseCipher (List.replicate 32 7)
        (List.range 16) [104, 105]).encrypted
      (List.replicate 32 7) (List.range 16) = [104, 105] :=
  (decryptFileContent_inverts_encryptFileWithAES reverseCipher
    reverseCipher_sound (List.replicate 32 7) (List.range 16) [104, 105]
    (by decide) (by decide) (by decide)).1
